import Mathlib

/-!
Shallow embedding of the QuADS optimizer core (`models/amp_sim/quads.py`):
the classical rejection sampler `get_samples_classical`, the quantum-path
aggregator `get_samples_grover`, the amplification-count estimate
`optimal_amplify_num`, and the optimization loop `run_quads`.

Modelling conventions:
* machine floats become an abstract linearly ordered value type `V`
  (instantiated with `ℚ` in concrete evaluations) except where the code's
  formulas are genuinely transcendental (`optimal_amplify_num`), which are
  embedded over `ℝ`;
* sample points are an abstract type `α` (the code's `D`-vectors);
* the randomized external collaborator `get_normal_samples` becomes an
  explicit stream `batches : ℕ → List α` of successive draws, and the
  external oracle collaborator `sampling_grover_oracle` becomes a function
  from the call index to its returned triple;
* a Python `TimeoutError` becomes the `none` case of an `Option` result.
-/

namespace Quads

/-- Search-distribution parameters, as accessed by `quads.py`
(`cma_param.mean`, `cma_param.cov`, `cma_param.step_size`).  The structure
itself lives in the external `models.parameters` module; field layout is
taken from its uses in the embedded code and from the spec's
DistributionState description. -/
structure CMAParam (Vec Mat V : Type) where
  mean : Vec
  cov : Mat
  step_size : V

/-- Distribution state threaded through the loop: acceptance `threshold`
plus the CMA parameters (`QuadsParam(threshold, cma_param)`). -/
structure QuadsParam (Vec Mat V : Type) where
  threshold : V
  cma_param : CMAParam Vec Mat V

variable {Vec Mat V α : Type}

/-- Embeds `np.where(accept_flag)[0]` for the flag array `v < th` over a
value list: the 0-based indices whose entry is below the threshold, in
increasing order (so the code's `np.sort` of it is the identity). -/
def whereIdxs [LinearOrder V] (th : V) : List V → List ℕ
  | [] => []
  | v :: rest =>
    if v < th then 0 :: (whereIdxs th rest).map (· + 1)
    else (whereIdxs th rest).map (· + 1)

/-- The `while n_sampled < n_samples` loop of `get_samples_classical`
(quads.py lines 46-67).  Each pass draws the batch `batches k` of the
stream (the code's `get_normal_samples(...)` with `n_parallel = 100`),
evaluates `func` on it, and accepts the points whose value is strictly
below `th`.  If the accepts reach the target, only the first
`n_samples - n_sampled` accepted points are kept and the evaluation count
advances by the in-batch index of the last needed accept plus one;
otherwise the whole batch (100 evaluations) is counted, the accepts are
appended, and the loop re-enters unless the count has passed `limit`
(`eval_limit_one_sample`), in which case it raises (`none`).
Source keeps `accepted` and `accepted_val` as two parallel arrays; here
they are one list of pairs. -/
def classicalLoop [LinearOrder V] (func : α → V) (th : V) (batches : ℕ → List α)
    (n_samples limit : ℕ) (k n_sampled n_eval : ℕ) (accepted : List (α × V)) :
    Option (List (α × V) × ℕ) :=
  if h1 : n_sampled < n_samples then
    let sample := batches k
    let func_val := sample.map func
    let acceptedBatch := (sample.map (fun x => (x, func x))).filter (fun xv => decide (xv.2 < th))
    let accept_num := func_val.countP (fun v => decide (v < th))
    if h2 : n_samples ≤ accept_num + n_sampled then
      some (accepted ++ acceptedBatch.take (n_samples - n_sampled),
            n_eval + (whereIdxs th func_val).getD (n_samples - n_sampled - 1) 0 + 1)
    else
      if h3 : limit < n_eval + 100 then none
      else classicalLoop func th batches n_samples limit (k + 1)
             (n_sampled + accept_num) (n_eval + 100) (accepted ++ acceptedBatch)
  else some (accepted, n_eval)
termination_by limit - n_eval
decreasing_by omega

/-- `get_samples_classical` up to (and including) the raw evaluation count
`n_eval`: accepted sample/value pairs plus raw objective evaluations used,
`none` on `TimeoutError`. -/
def get_samples_classical_raw [LinearOrder V] (func : α → V)
    (quads_param : QuadsParam Vec Mat V) (batches : ℕ → List α)
    (n_samples limit : ℕ) : Option (List (α × V) × ℕ) :=
  classicalLoop func quads_param.threshold batches n_samples limit 0 0 0 []

/-- `optimal_amplify_num(p) = np.arccos(np.sqrt(p)) / 2 / np.arcsin(np.sqrt(p))`
(quads.py lines 33-34), read over the reals. -/
noncomputable def optimal_amplify_num (p : ℝ) : ℝ :=
  Real.arccos (Real.sqrt p) / 2 / Real.arcsin (Real.sqrt p)

/-- Full `get_samples_classical` (quads.py lines 36-72): the raw loop
followed by the estimated quantum-equivalent cost
`(optimal_amplify_num(n_samples / n_eval) + 1) * n_samples`. -/
noncomputable def get_samples_classical [LinearOrder V] (func : α → V)
    (quads_param : QuadsParam Vec Mat V) (batches : ℕ → List α)
    (n_samples limit : ℕ) : Option (List (α × V) × ℝ) :=
  (get_samples_classical_raw func quads_param batches n_samples limit).map
    fun r => (r.1, (optimal_amplify_num ((n_samples : ℝ) / (r.2 : ℝ)) + 1) * (n_samples : ℝ))

/-! ### Auxiliary lemmas about the classical sampler -/

lemma whereIdxs_length [LinearOrder V] (th : V) (l : List V) :
    (whereIdxs th l).length = l.countP (fun v => decide (v < th)) := by
  induction l with
  | nil => simp [whereIdxs]
  | cons v rest ih =>
    by_cases hv : v < th <;> simp [whereIdxs, hv, List.countP_cons, ih]

lemma getD_map_succ (l : List ℕ) (m : ℕ) (h : m < l.length) :
    (l.map (· + 1)).getD m 0 = l.getD m 0 + 1 := by
  rw [List.getD_eq_getElem _ _ (by simpa using h), List.getD_eq_getElem _ _ h, List.getElem_map]

/-- The `m`-th entry of `np.where(accept_flag)[0]` (flag `v < th`) is a
below-threshold position whose prefix (it included) holds exactly `m + 1`
accepted evaluations. -/
lemma whereIdxs_spec [LinearOrder V] (th : V) (l : List V) :
    ∀ m, m < l.countP (fun v => decide (v < th)) →
      (whereIdxs th l).getD m 0 < l.length ∧
      (l.take ((whereIdxs th l).getD m 0 + 1)).countP (fun v => decide (v < th)) = m + 1 ∧
      l.getD ((whereIdxs th l).getD m 0) th < th := by
  induction l with
  | nil => intro m hm; simp at hm
  | cons v rest ih =>
    intro m hm
    by_cases hv : v < th
    · cases m with
      | zero =>
        simp [whereIdxs, hv, List.countP_cons]
      | succ m' =>
        have hm' : m' < rest.countP (fun v => decide (v < th)) := by
          simp [List.countP_cons, hv] at hm; omega
        have hlen : m' < (whereIdxs th rest).length := by
          rw [whereIdxs_length]; exact hm'
        obtain ⟨ih1, ih2, ih3⟩ := ih m' hm'
        have hg : (whereIdxs th (v :: rest)).getD (m' + 1) 0
            = (whereIdxs th rest).getD m' 0 + 1 := by
          simp only [whereIdxs, if_pos hv, List.getD_cons_succ]
          exact getD_map_succ _ _ hlen
        refine ⟨?_, ?_, ?_⟩
        · rw [hg]; simpa using ih1
        · rw [hg, List.take_succ_cons, List.countP_cons, ih2]
          simp [hv]
        · rw [hg, List.getD_cons_succ]; exact ih3
    · have hm' : m < rest.countP (fun v => decide (v < th)) := by
        simpa [List.countP_cons, hv] using hm
      have hlen : m < (whereIdxs th rest).length := by
        rw [whereIdxs_length]; exact hm'
      obtain ⟨ih1, ih2, ih3⟩ := ih m hm'
      have hg : (whereIdxs th (v :: rest)).getD m 0
          = (whereIdxs th rest).getD m 0 + 1 := by
        simp only [whereIdxs, if_neg hv]
        exact getD_map_succ _ _ hlen
      refine ⟨?_, ?_, ?_⟩
      · rw [hg]; simpa using ih1
      · rw [hg, List.take_succ_cons, List.countP_cons, ih2]
        simp [hv]
      · rw [hg, List.getD_cons_succ]; exact ih3

/-- `sample[accept_flag]` has `np.count_nonzero(accept_flag)` entries. -/
lemma acceptedBatch_length [LinearOrder V] (func : α → V) (th : V) (sample : List α) :
    ((sample.map (fun x => (x, func x))).filter (fun xv => decide (xv.2 < th))).length
      = (sample.map func).countP (fun v => decide (v < th)) := by
  rw [← List.countP_eq_length_filter, List.countP_map, List.countP_map]
  rfl

/-- Main invariant of the `while` loop: starting from a partial accept list
that matches its count and is all below threshold, a normal return carries
exactly `n_samples` pairs, all strictly below the threshold. -/
lemma classicalLoop_spec [LinearOrder V] (func : α → V) (th : V) (batches : ℕ → List α)
    (n_samples limit : ℕ) :
    ∀ k n_sampled n_eval accepted,
      accepted.length = n_sampled →
      (∀ xv ∈ accepted, xv.2 < th) →
      n_sampled ≤ n_samples →
      ∀ l E, classicalLoop func th batches n_samples limit k n_sampled n_eval accepted = some (l, E) →
        l.length = n_samples ∧ ∀ xv ∈ l, xv.2 < th := by
  intro k n_sampled n_eval accepted
  induction k, n_sampled, n_eval, accepted using classicalLoop.induct func th batches n_samples limit with
  | case1 k n_sampled n_eval accepted h1 sample func_val accept_num h2 =>
    intro hlen hval _hle l E heq
    rw [classicalLoop] at heq
    rw [dif_pos h1] at heq
    simp only [dif_pos h2, Option.some.injEq, Prod.mk.injEq] at heq
    obtain ⟨hl, _hE⟩ := heq
    subst hl
    constructor
    · have h2' : n_samples ≤ ((batches k).map func).countP (fun v => decide (v < th)) + n_sampled := h2
      rw [List.length_append, List.length_take, acceptedBatch_length, hlen]
      omega
    · intro xv hxv
      rcases List.mem_append.1 hxv with h | h
      · exact hval xv h
      · have := List.mem_filter.1 (List.mem_of_mem_take h)
        simpa using this.2
  | case2 k n_sampled n_eval accepted h1 sample func_val accept_num h2 h3 =>
    intro _ _ _ l E heq
    rw [classicalLoop] at heq
    rw [dif_pos h1] at heq
    rw [dif_neg h2, dif_pos h3] at heq
    exact Option.noConfusion heq
  | case3 k n_sampled n_eval accepted h1 sample func_val acceptedB accept_num h2 h3 ih =>
    intro hlen hval _hle l E heq
    rw [classicalLoop] at heq
    rw [dif_pos h1] at heq
    simp only [dif_neg h2, dif_neg h3] at heq
    refine ih ?_ ?_ ?_ l E heq
    · rw [List.length_append, acceptedBatch_length, hlen]
    · intro xv hxv
      rcases List.mem_append.1 hxv with h | h
      · exact hval xv h
      · have := List.mem_filter.1 h
        simpa using this.2
    · omega
  | case4 k n_sampled n_eval accepted h1 =>
    intro hlen hval hle l E heq
    rw [classicalLoop, dif_neg h1] at heq
    simp only [Option.some.injEq, Prod.mk.injEq] at heq
    obtain ⟨hl, _⟩ := heq
    subst hl
    exact ⟨by omega, hval⟩

/-- If every draw of the stream evaluates at or above the threshold, the
loop can never collect a missing accept and must end in `TimeoutError`. -/
lemma classicalLoop_none_of_no_accepts [LinearOrder V] (func : α → V) (th : V)
    (batches : ℕ → List α) (n_samples limit : ℕ)
    (hz : ∀ k, ∀ x ∈ batches k, ¬ func x < th) :
    ∀ k n_sampled n_eval accepted, n_sampled < n_samples →
      classicalLoop func th batches n_samples limit k n_sampled n_eval accepted = none := by
  have hcount : ∀ k, ((batches k).map func).countP (fun v => decide (v < th)) = 0 := by
    intro k
    rw [List.countP_eq_zero]
    intro v hv
    obtain ⟨x, hx, rfl⟩ := List.mem_map.1 hv
    simpa using hz k x hx
  intro k n_sampled n_eval accepted
  induction k, n_sampled, n_eval, accepted using classicalLoop.induct func th batches n_samples limit with
  | case1 k n_sampled n_eval accepted h1 sample func_val accept_num h2 =>
    intro _
    have h2' : n_samples ≤ ((batches k).map func).countP (fun v => decide (v < th)) + n_sampled := h2
    rw [hcount k] at h2'
    omega
  | case2 k n_sampled n_eval accepted h1 sample func_val accept_num h2 h3 =>
    intro _
    rw [classicalLoop, dif_pos h1, dif_neg h2, dif_pos h3]
  | case3 k n_sampled n_eval accepted h1 sample func_val acceptedB accept_num h2 h3 ih =>
    intro _
    rw [classicalLoop, dif_pos h1, dif_neg h2, dif_neg h3]
    refine ih ?_
    have := hcount k
    show n_sampled + ((batches k).map func).countP (fun v => decide (v < th)) < n_samples
    omega
  | case4 k n_sampled n_eval accepted h1 =>
    intro h1'
    exact absurd h1' h1

/-! ### Claims about the classical sampler -/

/-- C1: for every distribution state and target accept count `N ≥ 1`, when
`get_samples_classical` returns normally it returns exactly `N` accepted
sample/value pairs, every returned objective value strictly below the
state's threshold.  The state's mean/covariance/step size only shape the
(abstracted) sample stream `batches`, over which the claim is proved for
all streams. -/
theorem C1_classical_returns_exactly_N_accepts [LinearOrder V] (func : α → V)
    (quads_param : QuadsParam Vec Mat V) (batches : ℕ → List α) (n_samples limit : ℕ)
    (hN : 1 ≤ n_samples) (r : List (α × V) × ℝ)
    (h : get_samples_classical func quads_param batches n_samples limit = some r) :
    r.1.length = n_samples ∧ ∀ xv ∈ r.1, xv.2 < quads_param.threshold := by
  unfold get_samples_classical at h
  obtain ⟨raw, hraw, hr⟩ := Option.map_eq_some'.1 h
  obtain ⟨l, E⟩ := raw
  have hmain := classicalLoop_spec func quads_param.threshold batches n_samples limit
    0 0 0 [] rfl (by simp) (by omega) l E hraw
  rw [← hr]
  exact hmain

/-- Witness for C1 at a concrete input: one sample requested, first draw
accepted immediately. -/
theorem C1_witness :
    get_samples_classical (fun x => x) (⟨1, ⟨(), (), 1⟩⟩ : QuadsParam Unit Unit ℚ)
        (fun _ => [(0 : ℚ)]) 1 10
      = some ([((0 : ℚ), (0 : ℚ))], (optimal_amplify_num ((1 : ℝ) / (1 : ℝ)) + 1) * (1 : ℝ)) ∧
    [((0 : ℚ), (0 : ℚ))].length = 1 ∧ ∀ xv ∈ [((0 : ℚ), (0 : ℚ))], xv.2 < (1 : ℚ) := by
  have h : get_samples_classical (fun x => x) (⟨1, ⟨(), (), 1⟩⟩ : QuadsParam Unit Unit ℚ)
      (fun _ => [(0 : ℚ)]) 1 10
      = some ([((0 : ℚ), (0 : ℚ))], (optimal_amplify_num ((1 : ℝ) / (1 : ℝ)) + 1) * (1 : ℝ)) := by
    simp [get_samples_classical, get_samples_classical_raw, classicalLoop, whereIdxs]
  exact ⟨h, C1_classical_returns_exactly_N_accepts (fun x => x) _ _ 1 10 (le_refl 1) _ h⟩

/-- C2: when a batch's accepts reach or overshoot the target, the loop
appends only the first `n_samples - n_sampled` accepted points of the batch
in batch order, and advances the evaluation count by the in-batch position
plus one (`idx + 1`) of the last accepted point needed — the prefix of the
batch of length `idx + 1` holds exactly the needed accepts and position
`idx` is itself an accept — not by the whole batch size. -/
theorem C2_overshoot_partial_batch [LinearOrder V] (func : α → V) (th : V)
    (batches : ℕ → List α) (n_samples limit k n_sampled n_eval : ℕ)
    (accepted : List (α × V))
    (h1 : n_sampled < n_samples)
    (h2 : n_samples ≤ ((batches k).map func).countP (fun v => decide (v < th)) + n_sampled) :
    ∃ idx,
      classicalLoop func th batches n_samples limit k n_sampled n_eval accepted
        = some (accepted ++
            (((batches k).map (fun x => (x, func x))).filter
              (fun xv => decide (xv.2 < th))).take (n_samples - n_sampled),
            n_eval + idx + 1) ∧
      idx < ((batches k).map func).length ∧
      (((batches k).map func).take (idx + 1)).countP (fun v => decide (v < th))
        = n_samples - n_sampled ∧
      ((batches k).map func).getD idx th < th := by
  have hm : n_samples - n_sampled - 1
      < ((batches k).map func).countP (fun v => decide (v < th)) := by
    omega
  obtain ⟨hs1, hs2, hs3⟩ := whereIdxs_spec th ((batches k).map func) (n_samples - n_sampled - 1) hm
  refine ⟨(whereIdxs th ((batches k).map func)).getD (n_samples - n_sampled - 1) 0, ?_, hs1, ?_, hs3⟩
  · rw [classicalLoop, dif_pos h1]
    simp only [dif_pos h2]
  · rw [hs2]
    omega

/-- Witness for C2 at a concrete input: two samples still needed, batch
`[5, 0, 0]` holds its accepts at positions 1 and 2, so three evaluations
are counted and the two accepted points appended. -/
theorem C2_witness :
    (0 : ℕ) < 2 ∧
    2 ≤ ([(5 : ℚ), 0, 0].map (fun x => x)).countP (fun v => decide (v < (1 : ℚ))) + 0 ∧
    ∃ idx,
      classicalLoop (fun x => x) (1 : ℚ) (fun _ => [(5 : ℚ), 0, 0]) 2 50 0 0 0 []
        = some (([] : List (ℚ × ℚ)) ++
            ((([(5 : ℚ), 0, 0]).map (fun x => (x, x))).filter
              (fun xv => decide (xv.2 < (1 : ℚ)))).take (2 - 0),
            0 + idx + 1) ∧
      idx < (([(5 : ℚ), 0, 0]).map (fun x => x)).length ∧
      ((([(5 : ℚ), 0, 0]).map (fun x => x)).take (idx + 1)).countP
          (fun v => decide (v < (1 : ℚ))) = 2 - 0 ∧
      (([(5 : ℚ), 0, 0]).map (fun x => x)).getD idx (1 : ℚ) < (1 : ℚ) := by
    refine ⟨by decide, by decide, ?_⟩
    exact C2_overshoot_partial_batch (fun x => x) (1 : ℚ) (fun _ => [(5 : ℚ), 0, 0])
      2 50 0 0 0 [] (by decide) (by decide)

/-- C3: when the running evaluation count passes the configured ceiling
before `n_samples` accepts are collected, the loop aborts with
`TimeoutError` (`none`) and no partial result; in particular with the
ceiling set to `n_samples - 1` and a stream whose draws are never below
threshold, the call times out instead of looping forever (the loop is a
total function, so it terminates on every input). -/
theorem C3_timeout_on_budget_exhaustion [LinearOrder V] (func : α → V)
    (quads_param : QuadsParam Vec Mat V) (batches : ℕ → List α) (n_samples : ℕ) :
    (∀ limit k n_sampled n_eval accepted,
        n_sampled < n_samples →
        ((batches k).map func).countP (fun v => decide (v < quads_param.threshold)) + n_sampled
          < n_samples →
        limit < n_eval + 100 →
        classicalLoop func quads_param.threshold batches n_samples limit
          k n_sampled n_eval accepted = none) ∧
    (1 ≤ n_samples →
      (∀ k, ∀ x ∈ batches k, ¬ func x < quads_param.threshold) →
      get_samples_classical_raw func quads_param batches n_samples (n_samples - 1) = none) := by
  constructor
  · intro limit k n_sampled n_eval accepted h1 h2 h3
    rw [classicalLoop, dif_pos h1, dif_neg (by omega : ¬ n_samples ≤
      ((batches k).map func).countP (fun v => decide (v < quads_param.threshold)) + n_sampled),
      dif_pos h3]
  · intro hN hz
    exact classicalLoop_none_of_no_accepts func quads_param.threshold batches n_samples
      (n_samples - 1) hz 0 0 0 [] (by omega)

/-- Witness for C3 at a concrete input: one sample requested, ceiling 0,
stream never below threshold, so the call times out. -/
theorem C3_witness :
    (1 ≤ 1 ∧ ∀ k : ℕ, ∀ x ∈ [(1 : ℚ)], ¬ x < (0 : ℚ)) ∧
    get_samples_classical_raw (fun x => x) (⟨0, ⟨(), (), 1⟩⟩ : QuadsParam Unit Unit ℚ)
      (fun _ => [(1 : ℚ)]) 1 0 = none := by
  refine ⟨⟨le_refl 1, by intro k; decide⟩, ?_⟩
  exact (C3_timeout_on_budget_exhaustion (fun x => x)
      (⟨0, ⟨(), (), 1⟩⟩ : QuadsParam Unit Unit ℚ) (fun _ => [(1 : ℚ)]) 1).2
    (le_refl 1) (by intro k x hx; simp at hx; simp [hx])

/-- C4: a successful return with `N` accepts and raw count `E` reports the
cost `(OptimalAmplifyCount(N/E) + 1) * N` where
`OptimalAmplifyCount(p) = arccos(√p) / (2·arcsin(√p))` — the code computes
`arccos(√p) / 2 / arcsin(√p)`, which is the same real number. -/
theorem C4_reported_cost_formula [LinearOrder V] (func : α → V)
    (quads_param : QuadsParam Vec Mat V) (batches : ℕ → List α) (n_samples limit : ℕ)
    (l : List (α × V)) (E : ℕ)
    (h : get_samples_classical_raw func quads_param batches n_samples limit = some (l, E)) :
    get_samples_classical func quads_param batches n_samples limit
      = some (l, (Real.arccos (Real.sqrt ((n_samples : ℝ) / (E : ℝ)))
          / (2 * Real.arcsin (Real.sqrt ((n_samples : ℝ) / (E : ℝ)))) + 1) * (n_samples : ℝ)) := by
  unfold get_samples_classical
  rw [h, Option.map_some']
  unfold optimal_amplify_num
  rw [div_div]

/-- Witness for C4 at a concrete input: one sample accepted after one
evaluation, so the reported cost is `(arccos(√1)/(2·arcsin(√1)) + 1) · 1`. -/
theorem C4_witness :
    get_samples_classical_raw (fun x => x) (⟨1, ⟨(), (), 1⟩⟩ : QuadsParam Unit Unit ℚ)
        (fun _ => [(0 : ℚ)]) 1 10 = some ([((0 : ℚ), (0 : ℚ))], 1) ∧
    get_samples_classical (fun x => x) (⟨1, ⟨(), (), 1⟩⟩ : QuadsParam Unit Unit ℚ)
        (fun _ => [(0 : ℚ)]) 1 10
      = some ([((0 : ℚ), (0 : ℚ))], (Real.arccos (Real.sqrt (((1 : ℕ) : ℝ) / ((1 : ℕ) : ℝ)))
          / (2 * Real.arcsin (Real.sqrt (((1 : ℕ) : ℝ) / ((1 : ℕ) : ℝ)))) + 1) * ((1 : ℕ) : ℝ)) := by
  have h : get_samples_classical_raw (fun x => x) (⟨1, ⟨(), (), 1⟩⟩ : QuadsParam Unit Unit ℚ)
      (fun _ => [(0 : ℚ)]) 1 10 = some ([((0 : ℚ), (0 : ℚ))], 1) := by
    simp [get_samples_classical_raw, classicalLoop, whereIdxs]
  exact ⟨h, C4_reported_cost_formula (fun x => x) _ _ 1 10 _ 1 h⟩

/-! ### The quantum-path aggregator `get_samples_grover` -/

/-- `get_samples_grover` (quads.py lines 11-30): for each of `n_samples`
requested samples, the external collaborator pair
`init_normal_state` / `sampling_grover_oracle` is invoked once; the
collaborator is modelled as a function from the call index to the returned
triple `(x, y, eval_num)` (its other arguments — objective, mean,
covariance·stepSize², digit count, threshold, `optimal_amplify_num` flag,
per-sample ceiling — are fixed for the call and folded into it).  The
per-call evaluation counts accumulate into `n_eval`; the samples and
values are appended in call order. -/
def get_samples_grover (oracle : ℕ → α × V × ℕ) : ℕ → List α × List V × ℕ
  | 0 => ([], [], 0)
  | n + 1 =>
    let r := get_samples_grover oracle n
    let s := oracle n
    (r.1 ++ [s.1], r.2.1 ++ [s.2.1], r.2.2 + s.2.2)

/-- C5: `get_samples_grover` invokes the oracle collaborator exactly once
per requested sample — sample `i` is the result of call `i`, for
`i = 0, …, N-1` — and reports as cost exactly the sum of the per-call
evaluation counts; with a deterministic stub of fixed per-call cost `c`
the reported total is exactly `N * c`. -/
theorem C5_grover_one_call_per_sample (oracle : ℕ → α × V × ℕ) (n_samples : ℕ) :
    (get_samples_grover oracle n_samples).1
        = (List.range n_samples).map (fun i => (oracle i).1) ∧
    (get_samples_grover oracle n_samples).2.1
        = (List.range n_samples).map (fun i => (oracle i).2.1) ∧
    (get_samples_grover oracle n_samples).2.2
        = (Finset.range n_samples).sum (fun i => (oracle i).2.2) ∧
    ∀ c, (∀ i, i < n_samples → (oracle i).2.2 = c) →
      (get_samples_grover oracle n_samples).2.2 = n_samples * c := by
  have hmain : (get_samples_grover oracle n_samples).1
        = (List.range n_samples).map (fun i => (oracle i).1) ∧
      (get_samples_grover oracle n_samples).2.1
        = (List.range n_samples).map (fun i => (oracle i).2.1) ∧
      (get_samples_grover oracle n_samples).2.2
        = (Finset.range n_samples).sum (fun i => (oracle i).2.2) := by
    induction n_samples with
    | zero => simp [get_samples_grover]
    | succ n ih =>
      obtain ⟨ih1, ih2, ih3⟩ := ih
      refine ⟨?_, ?_, ?_⟩
      · rw [get_samples_grover, List.range_succ, List.map_append]
        simp [ih1]
      · rw [get_samples_grover, List.range_succ, List.map_append]
        simp [ih2]
      · rw [get_samples_grover, Finset.sum_range_succ]
        simp [ih3]
  obtain ⟨h1, h2, h3⟩ := hmain
  refine ⟨h1, h2, h3, ?_⟩
  intro c hc
  rw [h3]
  rw [Finset.sum_congr rfl (fun i hi => hc i (Finset.mem_range.1 hi))]
  simp [mul_comm]

/-- Witness for C5 at a concrete input: a stub oracle of fixed per-call
cost 5, three samples requested, fifteen evaluations reported. -/
theorem C5_witness :
    (∀ i, i < 3 → ((fun _ => ((0 : ℚ), (0 : ℚ), 5)) i).2.2 = 5) ∧
    (get_samples_grover (fun _ => ((0 : ℚ), (0 : ℚ), 5)) 3).2.2 = 3 * 5 := by
  refine ⟨fun i _ => rfl, ?_⟩
  exact (C5_grover_one_call_per_sample (fun _ => ((0 : ℚ), (0 : ℚ), 5)) 3).2.2.2
    5 (fun i _ => rfl)

/-! ### The optimization loop `run_quads`

`run_quads` (quads.py lines 75-137) is embedded with its two collaborators
abstracted exactly at the source's call boundaries:

* `sampler i p` is the dispatched `get_samples_grover` /
  `get_samples_classical` call of iteration `i` at state `p` (the call
  index models the advancing random stream); `none` is the
  `TimeoutError` caught by the `try`/`except` that breaks the loop;
* `update b i p` is the external `update_quads_params(accepted,
  accepted_val, i, quads_param, hp)` (the hyperparameters are fixed for
  the run and folded in);
* `normT x` is `np.linalg.norm(x - config["target"])` for a point `x`.

`np.inf` (the initial running minimum) and `np.min` over a value array are
modelled in `WithTop V`, the order `V` with a greatest element `⊤`.  The
Python histories are lists appended once per completed iteration; the
embedding builds the same lists by consing the entry of iteration `i` onto
the entries of iterations `i+1, …`. -/

/-- `np.min` of a value array, `⊤` on the empty array. -/
def listMin [LinearOrder V] (l : List V) : WithTop V :=
  l.foldr (fun (v : V) (m : WithTop V) => min (v : WithTop V) m) ⊤

/-- `np.min(accepted_val)` of a batch of sample/value pairs. -/
def acceptedValMin [LinearOrder V] (batch : List (α × V)) : WithTop V :=
  listMin (batch.map Prod.snd)

/-- `np.min(np.linalg.norm(accepted - target, axis=1))` of a batch. -/
def distTargetMin [LinearOrder V] (normT : α → V) (batch : List (α × V)) : WithTop V :=
  listMin (batch.map (fun xv => normT xv.1))

/-- One `for i in range(max_iter)` suffix of `run_quads`, starting at
iteration `i` with `fuel` iterations left, current state `p` and running
minimum `min_val`.  Each pass: invoke the sampler (`none` breaks the loop
at once, keeping `p` and appending nothing); on success update the state,
push the running minimum, the iteration's evaluation count and the
distance-to-target onto the histories, append the updated state; stop
when `dist_target < terminate_eps` or the updated step size is below
`terminate_step_size`.  Returns the final state and the four history
tails. -/
def runQuadsAux [LinearOrder V] {C : Type}
    (sampler : ℕ → QuadsParam Vec Mat V → Option (List (α × V) × C))
    (update : List (α × V) → ℕ → QuadsParam Vec Mat V → QuadsParam Vec Mat V)
    (normT : α → V) (terminate_eps terminate_step_size : V) :
    ℕ → ℕ → QuadsParam Vec Mat V → WithTop V →
    QuadsParam Vec Mat V ×
      List (WithTop V) × List C × List (WithTop V) × List (QuadsParam Vec Mat V)
  | _, 0, p, _ => (p, [], [], [], [])
  | i, fuel + 1, p, min_val =>
    match sampler i p with
    | none => (p, [], [], [], [])
    | some (accepted, n_eval) =>
      let quads_param := update accepted i p
      let min_val' := min min_val (acceptedValMin accepted)
      let dist_target := distTargetMin normT accepted
      if dist_target < (terminate_eps : WithTop V) ∨
          quads_param.cma_param.step_size < terminate_step_size then
        (quads_param, [min_val'], [n_eval], [dist_target], [quads_param])
      else
        let r := runQuadsAux sampler update normT terminate_eps terminate_step_size
          (i + 1) fuel quads_param min_val'
        (r.1, min_val' :: r.2.1, n_eval :: r.2.2.1, dist_target :: r.2.2.2.1,
          quads_param :: r.2.2.2.2)

/-- `run_quads`: run from iteration 0 with the caller-supplied state and
`min_val = np.inf`; the returned parameter history starts with the initial
state (`param_hist = [init_param]` before the loop).  Result shape is the
source's `(quads_param, (min_func_hist, eval_num_hist, dist_target_hist,
param_hist))`. -/
def run_quads [LinearOrder V] {C : Type}
    (sampler : ℕ → QuadsParam Vec Mat V → Option (List (α × V) × C))
    (update : List (α × V) → ℕ → QuadsParam Vec Mat V → QuadsParam Vec Mat V)
    (normT : α → V) (terminate_eps terminate_step_size : V) (max_iter : ℕ)
    (init_param : QuadsParam Vec Mat V) :
    QuadsParam Vec Mat V ×
      List (WithTop V) × List C × List (WithTop V) × List (QuadsParam Vec Mat V) :=
  let r := runQuadsAux sampler update normT terminate_eps terminate_step_size
    0 max_iter init_param ⊤
  (r.1, r.2.1, r.2.2.1, r.2.2.2.1, init_param :: r.2.2.2.2)

/-- Shape invariant of the loop suffix: the three per-iteration histories
have one entry per completed iteration (at most `fuel`), the parameter
tail matches them, and the returned state is the last appended parameter
(the entry state when nothing was appended). -/
lemma runQuadsAux_shape [LinearOrder V] {C : Type}
    (sampler : ℕ → QuadsParam Vec Mat V → Option (List (α × V) × C))
    (update : List (α × V) → ℕ → QuadsParam Vec Mat V → QuadsParam Vec Mat V)
    (normT : α → V) (eps floor : V) :
    ∀ fuel i p min_val,
      (runQuadsAux sampler update normT eps floor i fuel p min_val).2.1.length
        = (runQuadsAux sampler update normT eps floor i fuel p min_val).2.2.1.length ∧
      (runQuadsAux sampler update normT eps floor i fuel p min_val).2.2.2.1.length
        = (runQuadsAux sampler update normT eps floor i fuel p min_val).2.2.1.length ∧
      (runQuadsAux sampler update normT eps floor i fuel p min_val).2.2.2.2.length
        = (runQuadsAux sampler update normT eps floor i fuel p min_val).2.2.1.length ∧
      (runQuadsAux sampler update normT eps floor i fuel p min_val).2.2.1.length ≤ fuel ∧
      (runQuadsAux sampler update normT eps floor i fuel p min_val).1
        = (runQuadsAux sampler update normT eps floor i fuel p min_val).2.2.2.2.getLastD p := by
  intro fuel
  induction fuel with
  | zero => intro i p min_val; simp [runQuadsAux]
  | succ fuel ih =>
    intro i p min_val
    cases hs : sampler i p with
    | none => simp [runQuadsAux, hs]
    | some r0 =>
      obtain ⟨accepted, n_eval⟩ := r0
      by_cases hcond : distTargetMin normT accepted < (eps : WithTop V) ∨
          (update accepted i p).cma_param.step_size < floor
      · simp [runQuadsAux, hs, hcond]
      · obtain ⟨ih1, ih2, ih3, ih4, ih5⟩ := ih (i + 1) (update accepted i p)
          (min min_val (acceptedValMin accepted))
        simp only [runQuadsAux, hs, if_neg hcond]
        refine ⟨by simpa using ih1, by simpa using ih2, by simpa using ih3,
          by simp only [List.length_cons]; omega, ?_⟩
        rw [List.getLastD_cons]
        exact ih5

/-! ### Claims about the optimization loop -/

/-- C10: on every return of `run_quads` the three per-iteration histories
share one length `L ≤ max_iter`, the parameter history has length `L + 1`,
starts at the caller-supplied initial state, and ends at the returned
state. -/
theorem C10_history_shape [LinearOrder V] {C : Type}
    (sampler : ℕ → QuadsParam Vec Mat V → Option (List (α × V) × C))
    (update : List (α × V) → ℕ → QuadsParam Vec Mat V → QuadsParam Vec Mat V)
    (normT : α → V) (eps floor : V) (max_iter : ℕ) (init_param : QuadsParam Vec Mat V) :
    (run_quads sampler update normT eps floor max_iter init_param).2.1.length
      = (run_quads sampler update normT eps floor max_iter init_param).2.2.1.length ∧
    (run_quads sampler update normT eps floor max_iter init_param).2.2.2.1.length
      = (run_quads sampler update normT eps floor max_iter init_param).2.2.1.length ∧
    (run_quads sampler update normT eps floor max_iter init_param).2.2.1.length ≤ max_iter ∧
    (run_quads sampler update normT eps floor max_iter init_param).2.2.2.2.length
      = (run_quads sampler update normT eps floor max_iter init_param).2.2.1.length + 1 ∧
    (run_quads sampler update normT eps floor max_iter init_param).2.2.2.2.head?
      = some init_param ∧
    (run_quads sampler update normT eps floor max_iter init_param).2.2.2.2.getLast?
      = some (run_quads sampler update normT eps floor max_iter init_param).1 := by
  obtain ⟨h1, h2, h3, h4, h5⟩ := runQuadsAux_shape sampler update normT eps floor
    max_iter 0 init_param ⊤
  refine ⟨h1, h2, h4, ?_, rfl, ?_⟩
  · show (init_param :: (runQuadsAux sampler update normT eps floor
        0 max_iter init_param ⊤).2.2.2.2).length
      = (runQuadsAux sampler update normT eps floor 0 max_iter init_param ⊤).2.2.1.length + 1
    rw [List.length_cons, h3]
  · show (init_param :: _).getLast? = _
    rw [List.getLast?_cons]
    rw [← List.getLastD_eq_getLast?]
    exact congrArg some h5.symm

/-- C6: when the sampler signals a timeout at iteration `i` the loop stops
at once — the failed iteration appends nothing to any history and the
state returned is the one entering iteration `i`, i.e. the result of
iteration `i-1`'s update (the initial state when `i = 0`) — while every
normally completed iteration appends exactly its own entry to each
history; the run still returns the normal result shape (state plus four
histories), the timeout is not propagated. -/
theorem C6_timeout_preserves_history [LinearOrder V] {C : Type}
    (sampler : ℕ → QuadsParam Vec Mat V → Option (List (α × V) × C))
    (update : List (α × V) → ℕ → QuadsParam Vec Mat V → QuadsParam Vec Mat V)
    (normT : α → V) (eps floor : V) :
    (∀ i fuel p min_val, sampler i p = none →
      runQuadsAux sampler update normT eps floor i (fuel + 1) p min_val
        = (p, [], [], [], [])) ∧
    (∀ i fuel p min_val accepted n_eval, sampler i p = some (accepted, n_eval) →
      ¬(distTargetMin normT accepted < (eps : WithTop V) ∨
          (update accepted i p).cma_param.step_size < floor) →
      runQuadsAux sampler update normT eps floor i (fuel + 1) p min_val
        = ((runQuadsAux sampler update normT eps floor (i + 1) fuel (update accepted i p)
              (min min_val (acceptedValMin accepted))).1,
           min min_val (acceptedValMin accepted)
             :: (runQuadsAux sampler update normT eps floor (i + 1) fuel (update accepted i p)
                  (min min_val (acceptedValMin accepted))).2.1,
           n_eval
             :: (runQuadsAux sampler update normT eps floor (i + 1) fuel (update accepted i p)
                  (min min_val (acceptedValMin accepted))).2.2.1,
           distTargetMin normT accepted
             :: (runQuadsAux sampler update normT eps floor (i + 1) fuel (update accepted i p)
                  (min min_val (acceptedValMin accepted))).2.2.2.1,
           update accepted i p
             :: (runQuadsAux sampler update normT eps floor (i + 1) fuel (update accepted i p)
                  (min min_val (acceptedValMin accepted))).2.2.2.2)) ∧
    (∀ max_iter init_param, 0 < max_iter → sampler 0 init_param = none →
      run_quads sampler update normT eps floor max_iter init_param
        = (init_param, [], [], [], [init_param])) := by
  refine ⟨?_, ?_, ?_⟩
  · intro i fuel p min_val h
    simp [runQuadsAux, h]
  · intro i fuel p min_val accepted n_eval h hcond
    simp only [runQuadsAux, h, if_neg hcond]
  · intro max_iter init_param hpos h
    cases max_iter with
    | zero => omega
    | succ m => simp [run_quads, runQuadsAux, h]

/-- Witness for C6 at a concrete input: a sampler that times out on its
first call leaves the histories empty and returns the initial state. -/
theorem C6_witness :
    ((fun _ _ => (none : Option (List (ℚ × ℚ) × ℕ))) 0
        (⟨1, ⟨(), (), 1⟩⟩ : QuadsParam Unit Unit ℚ) = none) ∧
    run_quads (fun _ _ => (none : Option (List (ℚ × ℚ) × ℕ)))
        (fun _ _ p => p) (fun _ => 0) (1 : ℚ) (1 : ℚ) 3
        (⟨1, ⟨(), (), 1⟩⟩ : QuadsParam Unit Unit ℚ)
      = (⟨1, ⟨(), (), 1⟩⟩, [], [], [], [(⟨1, ⟨(), (), 1⟩⟩ : QuadsParam Unit Unit ℚ)]) := by
  refine ⟨rfl, ?_⟩
  exact (C6_timeout_preserves_history (fun _ _ => none) (fun _ _ p => p)
    (fun _ => 0) 1 1).2.2 3 ⟨1, ⟨(), (), 1⟩⟩ (by omega) rfl

lemma getD_default_irrel {β : Type} (l : List β) (j : ℕ) (h : j < l.length) (d1 d2 : β) :
    l.getD j d1 = l.getD j d2 := by
  rw [List.getD_eq_getElem _ _ h, List.getD_eq_getElem _ _ h]

/-- Stopping discipline of the loop suffix when the sampler never times
out: no non-final completed iteration satisfies a termination condition,
and the loop either used all its fuel or its final iteration satisfied
one.  `dh`/`ph` are the distance and parameter tails, indexed so that
`ph.getD j _` is the state produced by iteration `i + j`'s update. -/
lemma runQuadsAux_stop [LinearOrder V] {C : Type}
    (sampler : ℕ → QuadsParam Vec Mat V → Option (List (α × V) × C))
    (update : List (α × V) → ℕ → QuadsParam Vec Mat V → QuadsParam Vec Mat V)
    (normT : α → V) (eps floor : V)
    (hs : ∀ i p, (sampler i p).isSome) :
    ∀ fuel i p min_val pf mh eh dh ph,
      runQuadsAux sampler update normT eps floor i fuel p min_val = (pf, mh, eh, dh, ph) →
      dh.length = eh.length ∧ ph.length = eh.length ∧
      (∀ j, j + 1 < eh.length →
        ¬(dh.getD j ⊤ < (eps : WithTop V) ∨
          (ph.getD j p).cma_param.step_size < floor)) ∧
      (eh.length = fuel ∨
        (0 < eh.length ∧
          (dh.getD (eh.length - 1) ⊤ < (eps : WithTop V) ∨
           (ph.getD (eh.length - 1) p).cma_param.step_size < floor))) := by
  intro fuel
  induction fuel with
  | zero =>
    intro i p min_val pf mh eh dh ph heq
    simp only [runQuadsAux, Prod.mk.injEq] at heq
    obtain ⟨-, h2, h3, h4, h5⟩ := heq
    subst h2; subst h3; subst h4; subst h5
    exact ⟨rfl, rfl, by intro j hj; simp at hj, Or.inl rfl⟩
  | succ fuel ih =>
    intro i p min_val pf mh eh dh ph heq
    cases hsp : sampler i p with
    | none => exact absurd (hs i p) (by simp [hsp])
    | some r0 =>
      obtain ⟨accepted, n_eval⟩ := r0
      by_cases hcond : distTargetMin normT accepted < (eps : WithTop V) ∨
          (update accepted i p).cma_param.step_size < floor
      · simp only [runQuadsAux, hsp, if_pos hcond, Prod.mk.injEq] at heq
        obtain ⟨-, h2, h3, h4, h5⟩ := heq
        subst h2; subst h3; subst h4; subst h5
        refine ⟨rfl, rfl, by simp, Or.inr ⟨by simp, ?_⟩⟩
        simpa using hcond
      · simp only [runQuadsAux, hsp, if_neg hcond, Prod.mk.injEq] at heq
        obtain ⟨-, h2, h3, h4, h5⟩ := heq
        subst h2; subst h3; subst h4; subst h5
        obtain ⟨ihd, ihp, ih1, ih2⟩ := ih (i + 1) (update accepted i p)
          (min min_val (acceptedValMin accepted))
          (runQuadsAux sampler update normT eps floor (i + 1) fuel (update accepted i p)
            (min min_val (acceptedValMin accepted))).1
          (runQuadsAux sampler update normT eps floor (i + 1) fuel (update accepted i p)
            (min min_val (acceptedValMin accepted))).2.1
          (runQuadsAux sampler update normT eps floor (i + 1) fuel (update accepted i p)
            (min min_val (acceptedValMin accepted))).2.2.1
          (runQuadsAux sampler update normT eps floor (i + 1) fuel (update accepted i p)
            (min min_val (acceptedValMin accepted))).2.2.2.1
          (runQuadsAux sampler update normT eps floor (i + 1) fuel (update accepted i p)
            (min min_val (acceptedValMin accepted))).2.2.2.2 rfl
        refine ⟨by simp [ihd], by simp [ihp], ?_, ?_⟩
        · intro j hj
          cases j with
          | zero =>
            simpa using hcond
          | succ j' =>
            have hj' : j' + 1 < (runQuadsAux sampler update normT eps floor (i + 1) fuel
                (update accepted i p) (min min_val (acceptedValMin accepted))).2.2.1.length := by
              simp only [List.length_cons] at hj; omega
            have hd := ih1 j' hj'
            simp only [List.getD_cons_succ]
            rwa [getD_default_irrel _ j' (by omega : j' < (runQuadsAux sampler update normT
              eps floor (i + 1) fuel (update accepted i p)
              (min min_val (acceptedValMin accepted))).2.2.2.2.length) p (update accepted i p)]
        · rcases ih2 with hlen | ⟨hpos, hlast⟩
          · left
            simp [hlen]
          · right
            refine ⟨by simp, ?_⟩
            have hL : (n_eval :: (runQuadsAux sampler update normT eps floor (i + 1) fuel
                (update accepted i p) (min min_val (acceptedValMin accepted))).2.2.1).length - 1
                = ((runQuadsAux sampler update normT eps floor (i + 1) fuel
                    (update accepted i p)
                    (min min_val (acceptedValMin accepted))).2.2.1.length - 1) + 1 := by
              simp only [List.length_cons]; omega
            rw [hL, List.getD_cons_succ, List.getD_cons_succ]
            rwa [getD_default_irrel _ _ (by omega : (runQuadsAux sampler update normT eps floor
              (i + 1) fuel (update accepted i p)
              (min min_val (acceptedValMin accepted))).2.2.1.length - 1
                < (runQuadsAux sampler update normT eps floor (i + 1) fuel (update accepted i p)
                  (min min_val (acceptedValMin accepted))).2.2.2.2.length) p (update accepted i p)]

/-- C7: when the sampler never times out, `run_quads` stops as soon as an
iteration's distance-to-target drops strictly below `terminate_eps` or its
updated step size drops strictly below `terminate_step_size` — no earlier
completed iteration satisfies either condition — and if neither condition
is ever met it performs exactly `max_iter` iterations, never more.
`(run_quads …).2.2.2.2.getD (j+1) _` is the state produced by iteration
`j`'s update. -/
theorem C7_termination_conditions [LinearOrder V] {C : Type}
    (sampler : ℕ → QuadsParam Vec Mat V → Option (List (α × V) × C))
    (update : List (α × V) → ℕ → QuadsParam Vec Mat V → QuadsParam Vec Mat V)
    (normT : α → V) (eps floor : V) (max_iter : ℕ) (init_param : QuadsParam Vec Mat V)
    (hs : ∀ i p, (sampler i p).isSome) :
    (∀ j, j + 1 < (run_quads sampler update normT eps floor max_iter init_param).2.2.1.length →
      ¬((run_quads sampler update normT eps floor max_iter init_param).2.2.2.1.getD j ⊤
          < (eps : WithTop V) ∨
        ((run_quads sampler update normT eps floor max_iter init_param).2.2.2.2.getD (j + 1)
            init_param).cma_param.step_size < floor)) ∧
    ((run_quads sampler update normT eps floor max_iter init_param).2.2.1.length = max_iter ∨
      (0 < (run_quads sampler update normT eps floor max_iter init_param).2.2.1.length ∧
        ((run_quads sampler update normT eps floor max_iter init_param).2.2.2.1.getD
            ((run_quads sampler update normT eps floor max_iter init_param).2.2.1.length - 1) ⊤
            < (eps : WithTop V) ∨
         ((run_quads sampler update normT eps floor max_iter init_param).2.2.2.2.getD
            (run_quads sampler update normT eps floor max_iter init_param).2.2.1.length
            init_param).cma_param.step_size < floor))) ∧
    (run_quads sampler update normT eps floor max_iter init_param).2.2.1.length ≤ max_iter := by
  obtain ⟨-, -, ih1, ih2⟩ := runQuadsAux_stop sampler update normT eps floor hs
    max_iter 0 init_param ⊤
    (runQuadsAux sampler update normT eps floor 0 max_iter init_param ⊤).1
    (runQuadsAux sampler update normT eps floor 0 max_iter init_param ⊤).2.1
    (runQuadsAux sampler update normT eps floor 0 max_iter init_param ⊤).2.2.1
    (runQuadsAux sampler update normT eps floor 0 max_iter init_param ⊤).2.2.2.1
    (runQuadsAux sampler update normT eps floor 0 max_iter init_param ⊤).2.2.2.2 rfl
  obtain ⟨-, -, -, hlen, -⟩ := runQuadsAux_shape sampler update normT eps floor
    max_iter 0 init_param ⊤
  refine ⟨?_, ?_, hlen⟩
  · intro j hj
    show ¬((runQuadsAux sampler update normT eps floor 0 max_iter init_param ⊤).2.2.2.1.getD
        j ⊤ < (eps : WithTop V) ∨
      ((init_param :: (runQuadsAux sampler update normT eps floor
          0 max_iter init_param ⊤).2.2.2.2).getD (j + 1)
        init_param).cma_param.step_size < floor)
    rw [List.getD_cons_succ]
    exact ih1 j hj
  · rcases ih2 with h | ⟨hpos, hlast⟩
    · exact Or.inl h
    · refine Or.inr ⟨hpos, ?_⟩
      show (runQuadsAux sampler update normT eps floor 0 max_iter init_param ⊤).2.2.2.1.getD
          ((runQuadsAux sampler update normT eps floor
            0 max_iter init_param ⊤).2.2.1.length - 1) ⊤ < (eps : WithTop V) ∨
        ((init_param :: (runQuadsAux sampler update normT eps floor
            0 max_iter init_param ⊤).2.2.2.2).getD
          (runQuadsAux sampler update normT eps floor 0 max_iter init_param ⊤).2.2.1.length
          init_param).cma_param.step_size < floor
      have hL : (runQuadsAux sampler update normT eps floor
          0 max_iter init_param ⊤).2.2.1.length
          = ((runQuadsAux sampler update normT eps floor
              0 max_iter init_param ⊤).2.2.1.length - 1) + 1 := by
        omega
      rw [hL, List.getD_cons_succ, ← hL]
      exact hlast

/-- Concrete inputs for the C7 witness: a total sampler returning a fixed
batch, identity update, unreachable termination thresholds. -/
def wSampler (_ : ℕ) (_ : QuadsParam Unit Unit ℚ) : Option (List (ℚ × ℚ) × ℕ) :=
  some ([((0 : ℚ), (5 : ℚ))], 1)

def wInit : QuadsParam Unit Unit ℚ := ⟨1, ⟨(), (), 1⟩⟩

def wRun : QuadsParam Unit Unit ℚ ×
    List (WithTop ℚ) × List ℕ × List (WithTop ℚ) × List (QuadsParam Unit Unit ℚ) :=
  run_quads wSampler (fun _ _ p => p) (fun _ => (0 : ℚ)) (-1 : ℚ) (-1 : ℚ) 2 wInit

/-- Witness for C7 at a concrete input: a total sampler whose batches never
meet the (unreachable) termination conditions runs for exactly the two
configured iterations. -/
theorem C7_witness :
    (∀ i p, (wSampler i p).isSome) ∧
    (wRun.2.2.1.length = 2 ∨
      (0 < wRun.2.2.1.length ∧
        (wRun.2.2.2.1.getD (wRun.2.2.1.length - 1) ⊤ < ((-1 : ℚ) : WithTop ℚ) ∨
         (wRun.2.2.2.2.getD wRun.2.2.1.length wInit).cma_param.step_size < (-1 : ℚ)))) := by
  refine ⟨fun _ _ => rfl, ?_⟩
  exact (C7_termination_conditions wSampler (fun _ _ p => p) (fun _ => (0 : ℚ))
    (-1 : ℚ) (-1 : ℚ) 2 wInit (fun _ _ => rfl)).2.1

/-- The `accepted_val` arrays of the successive completed iterations of the
loop suffix, in iteration order: the same control flow as `runQuadsAux`
(whose branching never depends on the running minimum), projected onto the
accepted objective values of each iteration. -/
def runAcceptedVals [LinearOrder V] {C : Type}
    (sampler : ℕ → QuadsParam Vec Mat V → Option (List (α × V) × C))
    (update : List (α × V) → ℕ → QuadsParam Vec Mat V → QuadsParam Vec Mat V)
    (normT : α → V) (terminate_eps terminate_step_size : V) :
    ℕ → ℕ → QuadsParam Vec Mat V → List (List V)
  | _, 0, _ => []
  | i, fuel + 1, p =>
    match sampler i p with
    | none => []
    | some (accepted, _) =>
      let quads_param := update accepted i p
      let dist_target := distTargetMin normT accepted
      if dist_target < (terminate_eps : WithTop V) ∨
          quads_param.cma_param.step_size < terminate_step_size then
        [accepted.map Prod.snd]
      else
        (accepted.map Prod.snd) ::
          runAcceptedVals sampler update normT terminate_eps terminate_step_size
            (i + 1) fuel quads_param

lemma listMin_append [LinearOrder V] (l1 l2 : List V) :
    listMin (l1 ++ l2) = min (listMin l1) (listMin l2) := by
  induction l1 with
  | nil => simp [listMin]
  | cons v rest ih =>
    simp only [List.cons_append, listMin, List.foldr_cons] at *
    rw [ih, min_assoc]

/-- Each min-history entry of the loop suffix is the minimum of the
incoming running minimum and all accepted values of the completed
iterations up to and including the one that produced it. -/
lemma runQuadsAux_min_hist [LinearOrder V] {C : Type}
    (sampler : ℕ → QuadsParam Vec Mat V → Option (List (α × V) × C))
    (update : List (α × V) → ℕ → QuadsParam Vec Mat V → QuadsParam Vec Mat V)
    (normT : α → V) (eps floor : V) :
    ∀ fuel i p min_val j,
      j < (runQuadsAux sampler update normT eps floor i fuel p min_val).2.1.length →
      (runQuadsAux sampler update normT eps floor i fuel p min_val).2.1.getD j ⊤
        = min min_val (listMin
            (((runAcceptedVals sampler update normT eps floor i fuel p).take (j + 1)).flatten)) := by
  intro fuel
  induction fuel with
  | zero => intro i p min_val j hj; simp [runQuadsAux] at hj
  | succ fuel ih =>
    intro i p min_val j hj
    cases hsp : sampler i p with
    | none => simp [runQuadsAux, hsp] at hj
    | some r0 =>
      obtain ⟨accepted, n_eval⟩ := r0
      by_cases hcond : distTargetMin normT accepted < (eps : WithTop V) ∨
          (update accepted i p).cma_param.step_size < floor
      · simp only [runQuadsAux, hsp, if_pos hcond] at hj ⊢
        simp only [List.length_cons, List.length_nil] at hj
        have hj0 : j = 0 := by omega
        subst hj0
        simp only [runAcceptedVals, hsp, if_pos hcond]
        simp [acceptedValMin, listMin]
      · simp only [runQuadsAux, hsp, if_neg hcond] at hj ⊢
        simp only [runAcceptedVals, hsp, if_neg hcond]
        cases j with
        | zero =>
          simp [acceptedValMin, List.take_succ_cons, listMin_append]
        | succ j' =>
          have hj' : j' < (runQuadsAux sampler update normT eps floor (i + 1) fuel
              (update accepted i p) (min min_val (acceptedValMin accepted))).2.1.length := by
            simp only [List.length_cons] at hj; omega
          have := ih (i + 1) (update accepted i p) (min min_val (acceptedValMin accepted)) j' hj'
          rw [List.getD_cons_succ, this, List.take_succ_cons, List.flatten_cons, listMin_append]
          rw [acceptedValMin, min_assoc]

/-- One batch more can only lower the running minimum. -/
lemma listMin_flatten_take_succ_le [LinearOrder V] (t : List (List V)) (n : ℕ) :
    listMin ((t.take (n + 1)).flatten) ≤ listMin ((t.take n).flatten) := by
  rw [List.take_succ, List.flatten_append, listMin_append]
  exact min_le_left _ _

/-- C8: every entry of the min-objective history of `run_quads` is the
minimum of all accepted objective values of the iterations up to and
including the one that produced the entry (the running minimum across all
iterations, not only that iteration's own minimum), and consequently the
min-objective history is non-increasing. -/
theorem C8_running_minimum [LinearOrder V] {C : Type}
    (sampler : ℕ → QuadsParam Vec Mat V → Option (List (α × V) × C))
    (update : List (α × V) → ℕ → QuadsParam Vec Mat V → QuadsParam Vec Mat V)
    (normT : α → V) (eps floor : V) (max_iter : ℕ) (init_param : QuadsParam Vec Mat V) :
    (∀ j, j < (run_quads sampler update normT eps floor max_iter init_param).2.1.length →
      (run_quads sampler update normT eps floor max_iter init_param).2.1.getD j ⊤
        = listMin (((runAcceptedVals sampler update normT eps floor
            0 max_iter init_param).take (j + 1)).flatten)) ∧
    (∀ j, j + 1 < (run_quads sampler update normT eps floor max_iter init_param).2.1.length →
      (run_quads sampler update normT eps floor max_iter init_param).2.1.getD (j + 1) ⊤
        ≤ (run_quads sampler update normT eps floor max_iter init_param).2.1.getD j ⊤) := by
  have hmain : ∀ j, j < (run_quads sampler update normT eps floor
      max_iter init_param).2.1.length →
      (run_quads sampler update normT eps floor max_iter init_param).2.1.getD j ⊤
        = listMin (((runAcceptedVals sampler update normT eps floor
            0 max_iter init_param).take (j + 1)).flatten) := by
    intro j hj
    have := runQuadsAux_min_hist sampler update normT eps floor max_iter 0 init_param ⊤ j hj
    rw [min_eq_right le_top] at this
    exact this
  refine ⟨hmain, ?_⟩
  intro j hj
  rw [hmain (j + 1) hj, hmain j (by omega)]
  exact listMin_flatten_take_succ_le _ _

/-- Witness for C8 at a concrete input: the first entry of the
min-objective history equals the minimum of the first iteration's accepted
values. -/
theorem C8_witness :
    0 < wRun.2.1.length ∧
    wRun.2.1.getD 0 ⊤
      = listMin (((runAcceptedVals wSampler (fun _ _ p => p) (fun _ => (0 : ℚ))
          (-1 : ℚ) (-1 : ℚ) 0 2 wInit).take 1).flatten) := by
  refine ⟨by decide, ?_⟩
  exact (C8_running_minimum wSampler (fun _ _ p => p) (fun _ => (0 : ℚ))
    (-1 : ℚ) (-1 : ℚ) 2 wInit).1 0 (by decide)

/-! ### The amplification-count estimate as a real function -/

/-- C9: `optimal_amplify_num`, read as the real function
`p ↦ arccos(√p) / (2·arcsin(√p))`, is strictly decreasing on `(0, 1)`,
non-negative there, and tends to `0` as `p → 1`. -/
theorem C9_optimal_amplify_num_shape :
    StrictAntiOn optimal_amplify_num (Set.Ioo 0 1) ∧
    (∀ p ∈ Set.Ioo (0 : ℝ) 1, 0 ≤ optimal_amplify_num p) ∧
    Filter.Tendsto optimal_amplify_num (nhdsWithin 1 (Set.Ioo 0 1)) (nhds 0) := by
  refine ⟨?_, ?_, ?_⟩
  · intro x hx y hy hxy
    have hsx : Real.sqrt x ∈ Set.Icc (-1 : ℝ) 1 :=
      ⟨le_trans (by norm_num) (Real.sqrt_nonneg x), Real.sqrt_le_one.2 hx.2.le⟩
    have hsy : Real.sqrt y ∈ Set.Icc (-1 : ℝ) 1 :=
      ⟨le_trans (by norm_num) (Real.sqrt_nonneg y), Real.sqrt_le_one.2 hy.2.le⟩
    have hxy' : Real.sqrt x < Real.sqrt y := Real.sqrt_lt_sqrt hx.1.le hxy
    have harccos : Real.arccos (Real.sqrt y) < Real.arccos (Real.sqrt x) :=
      Real.strictAntiOn_arccos hsx hsy hxy'
    have harcsin : Real.arcsin (Real.sqrt x) < Real.arcsin (Real.sqrt y) :=
      Real.strictMonoOn_arcsin hsx hsy hxy'
    have hsinxpos : 0 < Real.arcsin (Real.sqrt x) :=
      Real.arcsin_pos.2 (Real.sqrt_pos.2 hx.1)
    unfold optimal_amplify_num
    rw [div_div, div_div]
    exact div_lt_div₀ harccos (by linarith) (Real.arccos_nonneg _) (by linarith)
  · intro p hp
    unfold optimal_amplify_num
    have h1 : 0 ≤ Real.arccos (Real.sqrt p) / 2 :=
      div_nonneg (Real.arccos_nonneg _) (by norm_num)
    have h2 : 0 < Real.arcsin (Real.sqrt p) :=
      Real.arcsin_pos.2 (Real.sqrt_pos.2 hp.1)
    exact div_nonneg h1 h2.le
  · have hc : ContinuousAt optimal_amplify_num 1 := by
      unfold optimal_amplify_num
      apply ContinuousAt.div
      · exact ((Real.continuous_arccos.comp Real.continuous_sqrt).continuousAt).div_const 2
      · exact (Real.continuous_arcsin.comp Real.continuous_sqrt).continuousAt
      · rw [Real.sqrt_one, Real.arcsin_one]
        exact div_ne_zero Real.pi_ne_zero two_ne_zero
    have h0 : optimal_amplify_num 1 = 0 := by
      unfold optimal_amplify_num
      rw [Real.sqrt_one, Real.arccos_one]
      simp
    have ht : Filter.Tendsto optimal_amplify_num (nhds 1) (nhds 0) := by
      rw [← h0]
      exact hc.tendsto
    exact ht.mono_left nhdsWithin_le_nhds

/-- Witness for C9 at concrete inputs: `1/4` and `3/4` lie in `(0, 1)`,
the estimate decreases between them and is non-negative at `1/4`. -/
theorem C9_witness :
    ((1 / 4 : ℝ) ∈ Set.Ioo (0 : ℝ) 1) ∧ ((3 / 4 : ℝ) ∈ Set.Ioo (0 : ℝ) 1) ∧
    ((1 / 4 : ℝ) < 3 / 4) ∧
    optimal_amplify_num (3 / 4) < optimal_amplify_num (1 / 4) ∧
    0 ≤ optimal_amplify_num (1 / 4) := by
  have h1 : (1 / 4 : ℝ) ∈ Set.Ioo (0 : ℝ) 1 := by constructor <;> norm_num
  have h2 : (3 / 4 : ℝ) ∈ Set.Ioo (0 : ℝ) 1 := by constructor <;> norm_num
  refine ⟨h1, h2, by norm_num, ?_, ?_⟩
  · exact C9_optimal_amplify_num_shape.1 h1 h2 (by norm_num)
  · exact C9_optimal_amplify_num_shape.2.1 (1 / 4) h1

end Quads
